import Mathlib

/-!
Shallow embedding of the order-management core of the Fermi backtest engine
(`backtest/Order.py`) and verification of its specification.

Modelling conventions:
* Python `float` amounts and prices are modelled as exact rationals (`ℚ`).
* Python `int` timestamps are modelled as `ℤ`; ids (uuid integers) as `ℕ`,
  supplied to constructors as an injected parameter (the spec models the
  process-wide unique id generator as an injected capability).
* Python `dict` / `OrderedDict` are modelled as association lists kept in
  insertion order (`alookup` / `ainsert` / `aerase` below mirror lookup,
  `d[k] = v` and `del d[k]`).
* `sortedcontainers.SortedDict(key_fn)` is modelled by the list of its keys
  maintained in sorted order: insertion of a fresh key uses the bisect-right
  discipline of `SortedKeyList.add` (a new key is placed after all keys whose
  sort key compares equal), and `d[k] = v` with `k` present leaves the
  position unchanged.
* Exceptions: operations that can raise return `Except Err` when the raise
  happens before any mutation; operations that mutate before raising
  (Python objects keep such mutations) return the mutated state together
  with an `Option Err`.  The error taxonomy names are the spec's
  (`InvalidOrder`, `OverfillError`, ...); in the source they are raised as
  `assert` / `KeyError`.
-/

inductive OrderSide where
  | Buy
  | Sell
deriving DecidableEq

inductive OrderType where
  | Limit
  | Market
  | StopLimit
deriving DecidableEq

inductive OrderStatus where
  | Submitted
  | Accepted
  | Open
  | Filled
  | Cancelled
deriving DecidableEq

/-- String value of the `OrderSide` enum, as in the source. -/
def OrderSide.value : OrderSide → String
  | .Buy => "buy"
  | .Sell => "sell"

/-- String value of the `OrderType` enum, as in the source. -/
def OrderType.value : OrderType → String
  | .Limit => "limit"
  | .Market => "market"
  | .StopLimit => "stop_limit"

/-- String value of the `OrderStatus` enum, as in the source. -/
def OrderStatus.value : OrderStatus → String
  | .Submitted => "submitted"
  | .Accepted => "accepted"
  | .Open => "open"
  | .Filled => "filled"
  | .Cancelled => "cancelled"

/-- Error taxonomy of the spec (section 7).  In the source, the first three
are `assert` statements, the last two are `KeyError` raised by dict lookups. -/
inductive Err where
  | InvalidOrder
  | InvalidTransition
  | OverfillError
  | EmptyQueue
  | KeyError
deriving DecidableEq

/-- Round-half-to-even of a rational to an integer, the tie-breaking rule of
Python's builtin `round`. -/
def roundHalfEven (q : ℚ) : ℤ :=
  let f := ⌊q⌋
  let r := q - (f : ℚ)
  if r < 1/2 then f
  else if 1/2 < r then f + 1
  else if f % 2 = 0 then f else f + 1

/-- Python `round(x, 8)` (the source's `_PREC = 8`), idealized over exact
rationals. -/
def round8 (q : ℚ) : ℚ :=
  ((roundHalfEven (q * (10:ℚ)^8) : ℤ) : ℚ) / (10:ℚ)^8

/-- Rendering of the stored timestamp used for the `datetime` snapshot field.
The source delegates the calendar formatting to Python's `datetime` library,
which is outside the embedded subsystem; the embedding keeps it as an abstract
injective rendering of the millisecond timestamp.  No claim constrains its
exact text. -/
def datetimeStr (ts : ℤ) : String := toString ts

/-- `Transaction.__init__`: immutable record of one fill event.  The source
computes `_symbol` from the names at construction and generates `_id`; the
embedding derives `symbol` by a function and takes the generated id as the
`id` field. -/
structure Transaction where
  timestamp : ℤ
  side : OrderSide
  quote_name : String
  base_name : String
  amount : ℚ
  price : ℚ
  id : ℕ
deriving DecidableEq

/-- Derived `symbol = quote_name + "/" + base_name`. -/
def Transaction.symbol (t : Transaction) : String :=
  t.quote_name ++ "/" ++ t.base_name

/-- JSON-like snapshot values produced by the `info` properties. -/
inductive Value where
  | str (s : String)
  | int (n : ℤ)
  | rat (q : ℚ)
  | list (l : List Value)
  | dict (d : List (String × Value))

/-- `Transaction.info`: the snapshot dict of a transaction, as an ordered
association list. -/
def Transaction.info (t : Transaction) : List (String × Value) :=
  [("datetime", Value.str (datetimeStr t.timestamp)),
   ("timestamp", Value.int t.timestamp),
   ("price", Value.rat (round8 t.price)),
   ("amount", Value.rat (round8 t.amount))]

/-- `Order`: the source class inherits from `Transaction`; the embedding
mirrors that with `extends`. -/
structure Order extends Transaction where
  status : OrderStatus
  type : OrderType
  stop_price : ℚ
  filled : ℚ
  transactions : List Transaction
  fee : List (String × ℚ)
deriving DecidableEq

def Order.symbol (o : Order) : String := o.toTransaction.symbol

/-- `remaining` property: `amount - filled`. -/
def Order.remaining (o : Order) : ℚ := o.amount - o.filled

/-- Argument tuple of `Order.__init__` (plus the injected fresh id). -/
structure OrderArgs where
  timestamp : ℤ
  order_type : OrderType
  side : OrderSide
  quote_name : String
  base_name : String
  amount : ℚ
  price : ℚ
  stop_price : ℚ
  oid : ℕ
deriving DecidableEq

/-- `Order.__init__`: asserts `amount > 0`; zeroes `price` for market orders
and `stop_price` for non-stop-limit orders (the ccxt convention); asserts
`price >= 0 and stop_price >= 0`; a fresh order starts `Submitted` with no
fills, no transactions and no fees. -/
def Order.init (a : OrderArgs) : Except Err Order :=
  if ¬ a.amount > 0 then .error .InvalidOrder
  else
    let price := if a.order_type = .Market then 0 else a.price
    let stop_price := if a.order_type ≠ .StopLimit then 0 else a.stop_price
    if ¬ (price ≥ 0 ∧ stop_price ≥ 0) then .error .InvalidOrder
    else .ok
      { timestamp := a.timestamp
        side := a.side
        quote_name := a.quote_name
        base_name := a.base_name
        amount := a.amount
        price := price
        id := a.oid
        status := .Submitted
        type := a.order_type
        stop_price := stop_price
        filled := 0
        transactions := []
        fee := [] }

/-- `Order.info`: the snapshot dict of an order, in the key order of the
source.  Note the source's key for the transaction list is the singular
string. -/
def Order.info (o : Order) : List (String × Value) :=
  [("id", Value.int (o.id : ℤ)),
   ("datetime", Value.str (datetimeStr o.timestamp)),
   ("timestamp", Value.int o.timestamp),
   ("status", Value.str o.status.value),
   ("symbol", Value.str o.symbol),
   ("type", Value.str o.type.value),
   ("side", Value.str o.side.value),
   ("price", Value.rat (round8 o.price)),
   ("stop_price", Value.rat (round8 o.stop_price)),
   ("amount", Value.rat (round8 o.amount)),
   ("filled", Value.rat (round8 o.filled)),
   ("remaining", Value.rat (round8 o.remaining)),
   ("transaction", Value.list (o.transactions.map (fun t => Value.dict t.info))),
   ("fee", Value.dict (o.fee.map (fun p => (p.1, Value.rat (round8 p.2)))))]

/-- The field names of an order snapshot, in order. -/
def Order.infoKeys (o : Order) : List String := o.info.map Prod.fst

/-- `Order.open`: asserts the order is not a market order, then sets the
status to `Open` (named `open_` because `open` is reserved in Lean). -/
def Order.open_ (o : Order) : Except Err Order :=
  if o.type = .Market then .error .InvalidTransition
  else .ok { o with status := .Open }

/-- `Order.accept`: asserts the order is a stop-limit order, then sets the
status to `Accepted`. -/
def Order.accept (o : Order) : Except Err Order :=
  if o.type ≠ .StopLimit then .error .InvalidTransition
  else .ok { o with status := .Accepted }

/-- `Order.cancel`: unconditionally sets the status to `Cancelled`. -/
def Order.cancel (o : Order) : Order :=
  { o with status := .Cancelled }

/-- `Order.execute_transaction`.  The source's Buy and Sell branches are
behaviourally identical: both add the amount to `_filled` and append the
transaction; then `assert self.amount - self.filled >= 0`; on exact full
fill the status becomes `Filled` and `True` is returned, otherwise `False`.
Because the mutation happens before the assert, a failing call returns the
mutated order together with the error (a Python object keeps the mutation
when the `assert` raises). -/
def Order.execute_transaction (o : Order) (tx : Transaction) :
    Order × Except Err Bool :=
  let o1 := { o with
    filled := o.filled + tx.amount
    transactions := o.transactions ++ [tx] }
  if o1.amount - o1.filled < 0 then (o1, .error .OverfillError)
  else if o1.amount - o1.filled = 0 then
    ({ o1 with status := .Filled }, .ok true)
  else (o1, .ok false)

/-- Folding a list of transactions through `execute_transaction`, keeping
only the order state. -/
def Order.executeAll (o : Order) (txs : List Transaction) : Order :=
  txs.foldl (fun s t => (s.execute_transaction t).1) o

/-- True when every call in the sequence of `execute_transaction` calls
returns without an overfill error. -/
def Order.executesOk (o : Order) : List Transaction → Bool
  | [] => true
  | t :: ts =>
    match o.execute_transaction t with
    | (o1, .ok _) => o1.executesOk ts
    | (_, .error _) => false

/-! ### Association lists (Python `dict` / `OrderedDict` in insertion order) -/

/-- Lookup in an association list (Python `d[k]` read / `k in d`). -/
def alookup {α β : Type} [DecidableEq α] (k : α) : List (α × β) → Option β
  | [] => none
  | p :: ps => if p.1 = k then some p.2 else alookup k ps

/-- Python `d[k] = v`: replace in place when the key is present, append
otherwise (dicts preserve insertion order). -/
def ainsert {α β : Type} [DecidableEq α] (k : α) (v : β) (l : List (α × β)) :
    List (α × β) :=
  if (alookup k l).isSome then
    l.map (fun p => if p.1 = k then (k, v) else p)
  else l ++ [(k, v)]

/-- Python `del d[k]` on a dict with distinct keys. -/
def aerase {α β : Type} [DecidableEq α] (k : α) (l : List (α × β)) :
    List (α × β) :=
  l.filter (fun p => decide (p.1 ≠ k))

/-- Replace the value at a present key, leaving everything else alone. -/
def aupdate {α β : Type} [DecidableEq α] (k : α) (v : β) (l : List (α × β)) :
    List (α × β) :=
  l.map (fun p => if p.1 = k then (k, v) else p)

/-- The keys of an association list, in order. -/
def akeys {α β : Type} (l : List (α × β)) : List α := l.map Prod.fst

/-- Remove one id from a key list (`del` on the sorted key list; keys are
distinct, so filtering equals removing the single occurrence). -/
def lerase (x : ℕ) (l : List ℕ) : List ℕ :=
  l.filter (fun y => decide (y ≠ x))

/-- Bisect-right insertion of `SortedKeyList.add`: the new key is inserted
before the first resident key whose sort key is strictly greater, hence
after every resident key with an equal sort key. -/
def insertRight (key : ℕ → ℤ) (x : ℕ) : List ℕ → List ℕ
  | [] => [x]
  | y :: ys => if key x < key y then x :: y :: ys else y :: insertRight key x ys

/-! ### Pending queue (`OrderQueue`) -/

/-- `OrderQueue`: its `book` is an `OrderedDict` from order id to order. -/
structure OrderQueue where
  book : List (ℕ × Order)
deriving DecidableEq

/-- `OrderQueue.__init__`: an empty ordered dict. -/
def OrderQueue.init : OrderQueue := ⟨[]⟩

/-- `OrderQueue.add_new_order`: construct the order (which may fail with
`InvalidOrder`), store it under its id, return the id. -/
def OrderQueue.add_new_order (q : OrderQueue) (a : OrderArgs) :
    Except Err (OrderQueue × ℕ) :=
  match Order.init a with
  | .error e => .error e
  | .ok o => .ok (⟨ainsert o.id o q.book⟩, o.id)

/-- `OrderQueue.pop_order`: `popitem(last=False)` removes and returns the
oldest entry; it raises on an empty dict (the spec's `EmptyQueue`). -/
def OrderQueue.pop_order (q : OrderQueue) : Except Err (Order × OrderQueue) :=
  match q.book with
  | [] => .error .EmptyQueue
  | p :: rest => .ok (p.2, ⟨rest⟩)

/-- Run `add_new_order` over a list of argument tuples. -/
def OrderQueue.addAll (q : OrderQueue) : List OrderArgs → Except Err OrderQueue
  | [] => .ok q
  | a :: rest =>
    match q.add_new_order a with
    | .error e => .error e
    | .ok (q1, _) => q1.addAll rest

/-- Pop up to `n` orders, stopping early if the queue empties; returns the
popped orders in pop order together with the remaining queue. -/
def OrderQueue.drainFuel : ℕ → OrderQueue → List Order × OrderQueue
  | 0, q => ([], q)
  | n + 1, q =>
    match q.pop_order with
    | .error _ => ([], q)
    | .ok (o, q1) =>
      let r := OrderQueue.drainFuel n q1
      (o :: r.1, r.2)

/-! ### Order book (`OrderBook`) -/

/-- `OrderBook` state: the primary map `book` (a dict), the global time
index `time_dict` (a `SortedDict` whose values always duplicate `book`,
kept here as its sorted key list), and `symbol_dict`, a dict from symbol to
one such per-symbol time index. -/
structure OrderBook where
  book : List (ℕ × Order)
  time_dict : List ℕ
  symbol_dict : List (String × List ℕ)
deriving DecidableEq

/-- `OrderBook.__init__`: everything empty. -/
def OrderBook.init : OrderBook := ⟨[], [], []⟩

/-- The sort key closed over by the source's index lambdas:
`lambda order_id: self.book[order_id].timestamp`, evaluated against a given
primary map.  (At every point where the source evaluates it, the id is
present in the map; the default is never reached on those states.) -/
def tsKey (book : List (ℕ × Order)) (i : ℕ) : ℤ :=
  ((alookup i book).map (fun o => o.timestamp)).getD 0

/-- `SortedDict.__setitem__` on the key-list model: a present key keeps its
position (only the value, which duplicates `book`, is rewritten); a fresh
key is placed by bisect-right on the sort key. -/
def sdInsert (key : ℕ → ℤ) (x : ℕ) (l : List ℕ) : List ℕ :=
  if x ∈ l then l else insertRight key x l

/-- `OrderBook.insert_order`: set the id in the primary map, in the global
time index, and in the per-symbol index for `order.symbol`, creating that
index first when the symbol is new (source lines 253-263; both branches of
the source's `if` store the order under its id). -/
def OrderBook.insert_order (b : OrderBook) (o : Order) : OrderBook :=
  let book1 := ainsert o.id o b.book
  let time1 := sdInsert (tsKey book1) o.id b.time_dict
  let symbol1 :=
    match alookup o.symbol b.symbol_dict with
    | none => b.symbol_dict ++ [(o.symbol, [o.id])]
    | some l => aupdate o.symbol (sdInsert (tsKey book1) o.id l) b.symbol_dict
  ⟨book1, time1, symbol1⟩

/-- The three deletion statements of `OrderBook.remove_order`, in an order
made explicit so the statement order of the source is itself an object of
the embedding. -/
inductive RemoveStep where
  | delTime
  | delSymbol
  | delBook
deriving DecidableEq

/-- One deletion statement.  Each mirrors a Python `del`: it raises
`KeyError` when the key is absent and otherwise removes it.  `delSymbol`
first looks the symbol up in `symbol_dict` (raising when absent) and then
deletes the id from that per-symbol index. -/
def removeStepApply (o : Order) (b : OrderBook) :
    RemoveStep → OrderBook × Option Err
  | .delTime =>
    if o.id ∈ b.time_dict then
      ({ b with time_dict := lerase o.id b.time_dict }, none)
    else (b, some .KeyError)
  | .delSymbol =>
    match alookup o.symbol b.symbol_dict with
    | none => (b, some .KeyError)
    | some l =>
      if o.id ∈ l then
        ({ b with symbol_dict := aupdate o.symbol (lerase o.id l) b.symbol_dict },
         none)
      else (b, some .KeyError)
  | .delBook =>
    if (alookup o.id b.book).isSome then
      ({ b with book := aerase o.id b.book }, none)
    else (b, some .KeyError)

/-- Run deletion statements in order; a raise aborts the remaining
statements but keeps the mutations already made (Python exception
semantics on a mutable object). -/
def runRemoveSteps (o : Order) : List RemoveStep → OrderBook → OrderBook × Option Err
  | [], b => (b, none)
  | s :: rest, b =>
    match removeStepApply o b s with
    | (b1, none) => runRemoveSteps o rest b1
    | (b1, some e) => (b1, some e)

/-- The statement order of the source's `remove_order` (lines 266-268):
global time index, then per-symbol index, then - last, as the source
comment demands - the primary map. -/
def removeOrderSteps : List RemoveStep :=
  [RemoveStep.delTime, RemoveStep.delSymbol, RemoveStep.delBook]

/-- `OrderBook.remove_order` is exactly its three deletion statements run
in source order. -/
def OrderBook.remove_order (b : OrderBook) (o : Order) : OrderBook × Option Err :=
  runRemoveSteps o removeOrderSteps b

/-- Python `lst[-m:]` for `m = limit` after clamping: the source reaches it
only with `m ≥ 0`, and `lst[-0:]` is the whole list. -/
def pySliceLast (m : ℕ) (l : List ℕ) : List ℕ :=
  if m = 0 then l else l.drop (l.length - m)

/-- `OrderBook.get_orders` (id view): empty symbol reads the global time
index, otherwise the per-symbol index (empty list when the symbol has no
index); `limit ≤ 0` returns all keys in index order, `limit > 0` the tail
slice `iloc[-min(limit, len):]`. -/
def OrderBook.get_orders (b : OrderBook) (symbol : String) (limit : ℤ) :
    List ℕ :=
  if symbol = "" then
    if limit ≤ 0 then b.time_dict
    else pySliceLast (min limit (b.book.length : ℤ)).toNat b.time_dict
  else
    match alookup symbol b.symbol_dict with
    | none => []
    | some l =>
      if limit ≤ 0 then l
      else pySliceLast (min limit (l.length : ℤ)).toNat l

/-! ### Sequences of book operations -/

/-- One call on the order book. -/
inductive BookOp where
  | ins (o : Order)
  | rem (o : Order)
deriving DecidableEq

/-- Apply one call, keeping the state a failed removal leaves behind. -/
def applyOp (b : OrderBook) : BookOp → OrderBook
  | .ins o => b.insert_order o
  | .rem o => (b.remove_order o).1

/-- A call is valid when an inserted order's id is fresh (ids are
process-unique by construction) and a removed order is currently stored in
the book. -/
def validOp (b : OrderBook) : BookOp → Bool
  | .ins o => (alookup o.id b.book).isNone
  | .rem o => decide (alookup o.id b.book = some o)

/-- A whole call sequence is valid when each call is valid on the state the
previous calls produced. -/
def validSeq : OrderBook → List BookOp → Bool
  | _, [] => true
  | b, op :: rest => validOp b op && validSeq (applyOp b op) rest

/-- Fold a call sequence over a book. -/
def applyOps (b : OrderBook) (ops : List BookOp) : OrderBook :=
  ops.foldl applyOp b

/-- A book state reachable from a fresh book by valid calls. -/
def Reachable (b : OrderBook) : Prop :=
  ∃ ops, validSeq OrderBook.init ops = true ∧ b = applyOps OrderBook.init ops

/-- The ids stored in the per-symbol indices, all symbols together. -/
def symbolUnion (b : OrderBook) : List ℕ :=
  b.symbol_dict.flatMap (fun p => p.2)

/-! ### Basic facts about `execute_transaction` -/

lemma exec_fst_filled (o : Order) (tx : Transaction) :
    (o.execute_transaction tx).1.filled = o.filled + tx.amount := by
  simp only [Order.execute_transaction]
  split <;> [skip; split] <;> rfl

lemma exec_fst_transactions (o : Order) (tx : Transaction) :
    (o.execute_transaction tx).1.transactions = o.transactions ++ [tx] := by
  simp only [Order.execute_transaction]
  split <;> [skip; split] <;> rfl

lemma exec_fst_amount (o : Order) (tx : Transaction) :
    (o.execute_transaction tx).1.amount = o.amount := by
  simp only [Order.execute_transaction]
  split <;> [skip; split] <;> rfl

lemma exec_snd (o : Order) (tx : Transaction) :
    (o.execute_transaction tx).2 =
      (if o.amount - (o.filled + tx.amount) < 0 then .error .OverfillError
       else if o.amount - (o.filled + tx.amount) = 0 then .ok true
       else .ok false) := by
  simp only [Order.execute_transaction]
  split <;> [rfl; (split <;> rfl)]

lemma exec_fst_status (o : Order) (tx : Transaction) :
    (o.execute_transaction tx).1.status =
      (if o.amount - (o.filled + tx.amount) < 0 then o.status
       else if o.amount - (o.filled + tx.amount) = 0 then OrderStatus.Filled
       else o.status) := by
  simp only [Order.execute_transaction]
  split <;> [rfl; (split <;> rfl)]

lemma executeAll_filled (o : Order) (txs : List Transaction) :
    (o.executeAll txs).filled = o.filled + (txs.map Transaction.amount).sum ∧
    (o.executeAll txs).transactions = o.transactions ++ txs := by
  induction txs generalizing o with
  | nil => simp [Order.executeAll]
  | cons t ts ih =>
    have h1 := ih (o.execute_transaction t).1
    simp only [Order.executeAll, List.foldl_cons] at h1 ⊢
    rw [h1.1, h1.2, exec_fst_filled, exec_fst_transactions]
    constructor
    · simp only [List.map_cons, List.sum_cons]; ring
    · simp

/-! ### Concrete sample objects for witnesses and counterexamples -/

/-- Valid limit-buy construction arguments on symbol `A/B`. -/
def limitArgs (ts : ℤ) (oid : ℕ) (amt : ℚ) : OrderArgs :=
  { timestamp := ts, order_type := .Limit, side := .Buy, quote_name := "A",
    base_name := "B", amount := amt, price := 5, stop_price := 7, oid := oid }

/-- A buy transaction on symbol `A/B` of a given amount. -/
def txOf (amt : ℚ) : Transaction :=
  { timestamp := 5, side := .Buy, quote_name := "A", base_name := "B",
    amount := amt, price := 1, id := 77 }

/-- The order `limitArgs ts oid amt` constructs (see `limitOrder_constructed`). -/
def limitOrder (ts : ℤ) (oid : ℕ) (amt : ℚ) : Order :=
  { timestamp := ts, side := .Buy, quote_name := "A", base_name := "B",
    amount := amt, price := 5, id := oid, status := .Submitted, type := .Limit,
    stop_price := 0, filled := 0, transactions := [], fee := [] }

/-- The sample orders really are what the constructor produces on the
sample arguments (for a positive amount). -/
lemma limitOrder_constructed (ts : ℤ) (oid : ℕ) (amt : ℚ) (h : 0 < amt) :
    Order.init (limitArgs ts oid amt) = .ok (limitOrder ts oid amt) := by
  simp [Order.init, limitArgs, limitOrder, not_lt.mpr, h]

def ordTen : Order := limitOrder 100 2 10

def ordOne : Order := limitOrder 100 1 1

/-! ### Claim C2 -/

/-- Claim C2 as frozen is false: a transaction of amount 2 against an order
of amount 1 with nothing filled makes `execute_transaction` fail with
`OverfillError`, yet the failed call has already increased `filled` and
appended the transaction - the order state is not unchanged. -/
theorem C2_overfill_state_changed_cex :
    (ordOne.execute_transaction (txOf 2)).2 = .error .OverfillError ∧
    ¬ (ordOne.execute_transaction (txOf 2)).1.filled = ordOne.filled ∧
    ¬ (ordOne.execute_transaction (txOf 2)).1.transactions = ordOne.transactions := by
  refine ⟨?_, ?_, ?_⟩ <;>
    norm_num [Order.execute_transaction, ordOne, limitOrder, txOf]

/-- Claim C2 amended: whenever a transaction's amount would make `filled`
exceed `amount`, `execute_transaction` fails with `OverfillError` and the
status is unchanged, but the failed call has already added the amount to
`filled` and appended the transaction (the source checks the invariant
only after mutating, and the mutation is not rolled back). -/
theorem C2_overfill_error_amended (o : Order) (tx : Transaction)
    (h : o.amount < o.filled + tx.amount) :
    (o.execute_transaction tx).2 = .error .OverfillError ∧
    (o.execute_transaction tx).1.status = o.status ∧
    (o.execute_transaction tx).1.filled = o.filled + tx.amount ∧
    (o.execute_transaction tx).1.transactions = o.transactions ++ [tx] := by
  have hc : o.amount - (o.filled + tx.amount) < 0 := by linarith
  refine ⟨?_, ?_, exec_fst_filled o tx, exec_fst_transactions o tx⟩
  · rw [exec_snd, if_pos hc]
  · rw [exec_fst_status, if_pos hc]

/-- Witness for the amended claim C2 at a concrete overfilling input. -/
theorem C2_overfill_error_amended_witness :
    (ordOne.execute_transaction (txOf 2)).1.filled = ordOne.filled + 2 :=
  (C2_overfill_error_amended ordOne (txOf 2)
    (by norm_num [ordOne, limitOrder, txOf])).2.2.1

/-! ### Claim C3 -/

/-- Claim C3: a non-overfilling transaction is appended to `transactions`
and adds its amount to `filled`; the call returns `true` exactly when
`filled` then equals `amount`, in which case the status becomes `Filled`,
and otherwise returns `false` leaving the status at its prior value; and
over any sequence of calls that all succeed, `filled` grows by exactly the
sum of the executed transactions' amounts, the transactions being recorded
in execution order. -/
theorem C3_execute_transaction_correct (o : Order) (tx : Transaction)
    (h : o.filled + tx.amount ≤ o.amount) :
    (o.execute_transaction tx).1.transactions = o.transactions ++ [tx] ∧
    (o.execute_transaction tx).1.filled = o.filled + tx.amount ∧
    ((o.execute_transaction tx).2 = .ok true ↔ o.filled + tx.amount = o.amount) ∧
    ((o.execute_transaction tx).2 = .ok false ↔ ¬ o.filled + tx.amount = o.amount) ∧
    (o.filled + tx.amount = o.amount → (o.execute_transaction tx).1.status = .Filled) ∧
    (¬ o.filled + tx.amount = o.amount → (o.execute_transaction tx).1.status = o.status) ∧
    ∀ txs, o.executesOk txs = true →
      (o.executeAll txs).filled = o.filled + (txs.map Transaction.amount).sum ∧
      (o.executeAll txs).transactions = o.transactions ++ txs := by
  have hnlt : ¬ o.amount - (o.filled + tx.amount) < 0 := by linarith
  have hiff : o.amount - (o.filled + tx.amount) = 0 ↔ o.filled + tx.amount = o.amount := by
    constructor <;> intro hh <;> linarith
  refine ⟨exec_fst_transactions o tx, exec_fst_filled o tx, ?_, ?_, ?_, ?_,
    fun txs _ => executeAll_filled o txs⟩
  · rw [exec_snd, if_neg hnlt]
    by_cases hz : o.amount - (o.filled + tx.amount) = 0
    · simp [hz, hiff.mp hz]
    · simp only [if_neg hz]
      simp
      exact fun hh => hz (hiff.mpr hh)
  · rw [exec_snd, if_neg hnlt]
    by_cases hz : o.amount - (o.filled + tx.amount) = 0
    · simp [hz, hiff.mp hz]
    · simp only [if_neg hz]
      simp
      exact fun hh => hz (hiff.mpr hh)
  · intro hfull
    rw [exec_fst_status, if_neg hnlt, if_pos (hiff.mpr hfull)]
  · intro hnotfull
    rw [exec_fst_status, if_neg hnlt,
      if_neg (fun hzz => hnotfull (hiff.mp hzz))]

/-- Witness for claim C3: a fill of 4 against a fresh order of amount 10
is recorded, leaves the order unfilled, and returns `false`. -/
theorem C3_execute_transaction_correct_witness :
    (ordTen.execute_transaction (txOf 4)).1.filled = ordTen.filled + 4 ∧
    (ordTen.execute_transaction (txOf 4)).2 = .ok false :=
  ⟨(C3_execute_transaction_correct ordTen (txOf 4)
      (by norm_num [ordTen, limitOrder, txOf])).2.1,
   ((C3_execute_transaction_correct ordTen (txOf 4)
      (by norm_num [ordTen, limitOrder, txOf])).2.2.2.1).mpr
      (by norm_num [ordTen, limitOrder, txOf])⟩

/-! ### Claim C6 -/

/-- Claim C6: construction fails with `InvalidOrder` exactly when the
amount is nonpositive or a price is negative after the type-based zeroing;
a successfully constructed order has zero price when it is a market order,
zero stop price when it is not a stop-limit order, nonnegative prices,
status `Submitted` and nothing filled. -/
theorem C6_order_construction (a : OrderArgs) :
    (Order.init a = .error .InvalidOrder ↔
      (a.amount ≤ 0 ∨ (if a.order_type = .Market then (0:ℚ) else a.price) < 0 ∨
       (if a.order_type ≠ .StopLimit then (0:ℚ) else a.stop_price) < 0)) ∧
    ∀ o, Order.init a = .ok o →
      (a.order_type = .Market → o.price = 0) ∧
      (a.order_type ≠ .StopLimit → o.stop_price = 0) ∧
      0 ≤ o.price ∧ 0 ≤ o.stop_price ∧ o.status = .Submitted ∧ o.filled = 0 := by
  have hred : Order.init a =
      (if ¬ a.amount > 0 then .error .InvalidOrder
       else if ¬ ((if a.order_type = .Market then (0:ℚ) else a.price) ≥ 0 ∧
           (if a.order_type ≠ .StopLimit then (0:ℚ) else a.stop_price) ≥ 0) then
         .error .InvalidOrder
       else .ok
        { timestamp := a.timestamp
          side := a.side
          quote_name := a.quote_name
          base_name := a.base_name
          amount := a.amount
          price := if a.order_type = .Market then 0 else a.price
          id := a.oid
          status := .Submitted
          type := a.order_type
          stop_price := if a.order_type ≠ .StopLimit then 0 else a.stop_price
          filled := 0
          transactions := []
          fee := [] }) := rfl
  by_cases h1 : a.amount > 0
  · by_cases h2 : ((if a.order_type = OrderType.Market then (0:ℚ) else a.price) ≥ 0 ∧
        (if a.order_type ≠ OrderType.StopLimit then (0:ℚ) else a.stop_price) ≥ 0)
    · rw [hred, if_neg (not_not_intro h1), if_neg (not_not_intro h2)]
      constructor
      · constructor
        · intro hh; simp at hh
        · intro hh
          rcases hh with hh | hh | hh
          · exact absurd h1 (not_lt.mpr hh)
          · exact absurd hh (not_lt.mpr h2.1)
          · exact absurd hh (not_lt.mpr h2.2)
      · intro o ho
        rw [Except.ok.injEq] at ho
        subst ho
        refine ⟨fun hm => ?_, fun hsl => ?_, h2.1, h2.2, rfl, rfl⟩
        · show (if a.order_type = OrderType.Market then (0:ℚ) else a.price) = 0
          rw [if_pos hm]
        · show (if a.order_type ≠ OrderType.StopLimit then (0:ℚ) else a.stop_price) = 0
          rw [if_pos hsl]
    · rw [hred, if_neg (not_not_intro h1), if_pos h2]
      constructor
      · refine ⟨fun _ => ?_, fun _ => rfl⟩
        rw [not_and_or] at h2
        rcases h2 with h2 | h2
        · exact Or.inr (Or.inl (not_le.mp h2))
        · exact Or.inr (Or.inr (not_le.mp h2))
      · intro o ho; simp at ho
  · rw [hred, if_pos h1]
    refine ⟨⟨fun _ => Or.inl (not_lt.mp h1), fun _ => rfl⟩, fun o ho => ?_⟩
    simp at ho

/-- Witness for claim C6: a nonpositive amount is rejected, and a valid
limit order is constructed `Submitted` and unfilled. -/
theorem C6_order_construction_witness :
    Order.init (limitArgs 100 3 (-1)) = .error .InvalidOrder ∧
    ∀ o, Order.init (limitArgs 100 3 7) = .ok o → o.status = .Submitted :=
  ⟨(C6_order_construction (limitArgs 100 3 (-1))).1.mpr
      (Or.inl (by norm_num [limitArgs])),
   fun o ho => ((C6_order_construction (limitArgs 100 3 7)).2 o ho).2.2.2.2.1⟩

/-! ### Claim C7 -/

/-- Claim C7: `open` fails with `InvalidTransition` exactly on market
orders and otherwise sets the status to `Open` whatever it was; `accept`
fails with `InvalidTransition` exactly on non-stop-limit orders and
otherwise sets the status to `Accepted`; `cancel` succeeds from every
status and unconditionally sets the status to `Cancelled`. -/
theorem C7_lifecycle_transitions (o : Order) :
    (o.open_ = .error .InvalidTransition ↔ o.type = .Market) ∧
    (o.type ≠ .Market → o.open_ = .ok { o with status := .Open }) ∧
    (o.accept = .error .InvalidTransition ↔ o.type ≠ .StopLimit) ∧
    (o.type = .StopLimit → o.accept = .ok { o with status := .Accepted }) ∧
    o.cancel = { o with status := .Cancelled } := by
  refine ⟨?_, ?_, ?_, ?_, rfl⟩
  · unfold Order.open_
    split_ifs with h
    · simp [h]
    · simp [h]
  · intro h
    unfold Order.open_
    rw [if_neg h]
  · unfold Order.accept
    split_ifs with h
    · simp [h]
    · simp [h]
  · intro h
    unfold Order.accept
    rw [if_neg (by simp [h])]

/-- Witness for claim C7: concrete transitions of a limit order, out of a
terminal status as well. -/
theorem C7_lifecycle_transitions_witness :
    ordTen.open_ = .ok { ordTen with status := .Open } ∧
    (ordTen.accept = .error .InvalidTransition ↔ ordTen.type ≠ .StopLimit) ∧
    ({ ordTen with status := .Filled } : Order).cancel =
      { ordTen with status := .Cancelled } :=
  ⟨(C7_lifecycle_transitions ordTen).2.1 (by decide),
   (C7_lifecycle_transitions ordTen).2.2.1,
   (C7_lifecycle_transitions { ordTen with status := .Filled }).2.2.2.2⟩

/-! ### Claim C8 -/

/-- A representative concrete order with one recorded transaction and one
fee entry, as the matching engine would leave it. -/
def ordSnap : Order :=
  { ordTen with filled := 4, transactions := [txOf 4], fee := [("B", 3/2)] }

/-- Claim C8 as frozen is false on one point: the snapshot has no
`transactions` field - the source emits the transaction list under the
singular key `transaction`. -/
theorem C8_snapshot_keys_cex :
    ordSnap.infoKeys = ["id", "datetime", "timestamp", "status", "symbol",
      "type", "side", "price", "stop_price", "amount", "filled", "remaining",
      "transaction", "fee"] ∧
    ¬ "transactions" ∈ ordSnap.infoKeys := by
  constructor
  · rfl
  · intro hmem
    simp [Order.infoKeys, Order.info] at hmem

/-- Claim C8 amended: the snapshot record has exactly the fields
`{id, datetime, timestamp, status, symbol, type, side, price, stop_price,
amount, filled, remaining, transaction, fee}` (the transaction list under
the singular key `transaction`); the status string is one of the five
status values, the type string one of the three type values, the side
string one of the two side values; the numeric fields and every fee amount
are rounded to 8 decimal places; and the `transaction` entry is the ordered
list of the order's transaction snapshots. -/
theorem C8_snapshot_shape_amended (o : Order) :
    o.infoKeys = ["id", "datetime", "timestamp", "status", "symbol", "type",
      "side", "price", "stop_price", "amount", "filled", "remaining",
      "transaction", "fee"] ∧
    o.status.value ∈ ["submitted", "accepted", "open", "filled", "cancelled"] ∧
    o.type.value ∈ ["limit", "market", "stop_limit"] ∧
    o.side.value ∈ ["buy", "sell"] ∧
    alookup "status" o.info = some (Value.str o.status.value) ∧
    alookup "price" o.info = some (Value.rat (round8 o.price)) ∧
    alookup "stop_price" o.info = some (Value.rat (round8 o.stop_price)) ∧
    alookup "amount" o.info = some (Value.rat (round8 o.amount)) ∧
    alookup "filled" o.info = some (Value.rat (round8 o.filled)) ∧
    alookup "remaining" o.info = some (Value.rat (round8 o.remaining)) ∧
    alookup "transaction" o.info =
      some (Value.list (o.transactions.map (fun t => Value.dict t.info))) ∧
    alookup "fee" o.info =
      some (Value.dict (o.fee.map (fun p => (p.1, Value.rat (round8 p.2))))) := by
  refine ⟨rfl, ?_, ?_, ?_, ?_, ?_, ?_, ?_, ?_, ?_, ?_, ?_⟩
  · cases o.status <;> simp [OrderStatus.value]
  · cases o.type <;> simp [OrderType.value]
  · cases o.side <;> simp [OrderSide.value]
  all_goals simp [Order.info, alookup]

/-! ### Lemmas about the association-list dictionary model -/

section AListLemmas

variable {α β : Type} [DecidableEq α]

lemma alookup_eq_none_iff (k : α) (l : List (α × β)) :
    alookup k l = none ↔ ∀ p ∈ l, p.1 ≠ k := by
  induction l with
  | nil => simp [alookup]
  | cons p ps ih =>
    by_cases h : p.1 = k
    · simp [alookup, h]
    · simp [alookup, h, ih]

lemma alookup_isSome_iff_mem (k : α) (l : List (α × β)) :
    (alookup k l).isSome = true ↔ k ∈ akeys l := by
  induction l with
  | nil => simp [alookup, akeys]
  | cons p ps ih =>
    by_cases h : p.1 = k
    · simp [alookup, akeys, h]
    · simp [alookup, akeys, h, Ne.symm h] at ih ⊢
      exact ih

lemma alookup_mem {k : α} {v : β} {l : List (α × β)}
    (h : alookup k l = some v) : (k, v) ∈ l := by
  induction l with
  | nil => simp [alookup] at h
  | cons p ps ih =>
    by_cases hp : p.1 = k
    · rw [alookup, if_pos hp, Option.some.injEq] at h
      have hpe : (k, v) = p := Prod.ext_iff.mpr ⟨hp.symm, h.symm⟩
      rw [hpe]
      exact List.mem_cons_self p ps
    · rw [alookup, if_neg hp] at h
      exact List.mem_cons_of_mem p (ih h)

lemma alookup_of_mem_nodup {k : α} {v : β} {l : List (α × β)}
    (hnd : (akeys l).Nodup) (h : (k, v) ∈ l) : alookup k l = some v := by
  induction l with
  | nil => simp at h
  | cons p ps ih =>
    rw [akeys, List.map_cons, List.nodup_cons] at hnd
    rcases List.mem_cons.mp h with h | h
    · rw [← h, alookup, if_pos rfl]
    · have hne : p.1 ≠ k := by
        intro he
        exact hnd.1 (he ▸ (by simpa [akeys] using List.mem_map_of_mem Prod.fst h))
      rw [alookup, if_neg hne]
      exact ih hnd.2 h

lemma alookup_append_of_isSome {k : α} {l : List (α × β)} {w : β}
    (h : alookup k l = some w) (l2 : List (α × β)) :
    alookup k (l ++ l2) = some w := by
  induction l with
  | nil => simp [alookup] at h
  | cons p ps ih =>
    by_cases hp : p.1 = k
    · rw [alookup, if_pos hp] at h
      rw [List.cons_append, alookup, if_pos hp]
      exact h
    · rw [alookup, if_neg hp] at h
      rw [List.cons_append, alookup, if_neg hp]
      exact ih h

lemma alookup_append_of_none {k : α} {l : List (α × β)}
    (h : alookup k l = none) (l2 : List (α × β)) :
    alookup k (l ++ l2) = alookup k l2 := by
  induction l with
  | nil => simp
  | cons p ps ih =>
    by_cases hp : p.1 = k
    · rw [alookup, if_pos hp] at h
      exact absurd h (by simp)
    · rw [alookup, if_neg hp] at h
      rw [List.cons_append, alookup, if_neg hp]
      exact ih h

lemma ainsert_of_none {k : α} {l : List (α × β)}
    (h : alookup k l = none) (v : β) : ainsert k v l = l ++ [(k, v)] := by
  rw [ainsert, if_neg (by simp [h])]

lemma aupdate_of_none {k : α} {l : List (α × β)}
    (h : alookup k l = none) (v : β) : aupdate k v l = l := by
  rw [alookup_eq_none_iff] at h
  induction l with
  | nil => rfl
  | cons p ps ih =>
    rw [aupdate, List.map_cons, if_neg (h p (by simp))]
    have := ih (fun q hq => h q (List.mem_cons_of_mem p hq))
    rw [aupdate] at this
    rw [this]

lemma alookup_aupdate_self {k : α} {l : List (α × β)} {w : β}
    (h : alookup k l = some w) (v : β) : alookup k (aupdate k v l) = some v := by
  induction l with
  | nil => simp [alookup] at h
  | cons p ps ih =>
    by_cases hp : p.1 = k
    · rw [aupdate, List.map_cons, if_pos hp, alookup, if_pos rfl]
    · rw [alookup, if_neg hp] at h
      rw [aupdate, List.map_cons, if_neg hp, alookup, if_neg hp]
      exact ih h

lemma alookup_aupdate_ne {j k : α} (hne : j ≠ k) (v : β) (l : List (α × β)) :
    alookup j (aupdate k v l) = alookup j l := by
  induction l with
  | nil => rfl
  | cons p ps ih =>
    by_cases hp : p.1 = k
    · rw [aupdate, List.map_cons, if_pos hp]
      have e1 : alookup j ((k, v) :: List.map
          (fun p => if p.1 = k then (k, v) else p) ps) =
          alookup j (aupdate k v ps) := by
        rw [alookup, if_neg (fun he => hne he.symm)]
        rfl
      have e2 : alookup j (p :: ps) = alookup j ps := by
        rw [alookup, if_neg (fun he => hne (he.symm.trans hp))]
      rw [e1, e2]
      exact ih
    · rw [aupdate, List.map_cons, if_neg hp]
      by_cases hj : p.1 = j
      · rw [alookup, if_pos hj, alookup, if_pos hj]
      · rw [alookup, if_neg hj, alookup, if_neg hj]
        exact ih

lemma akeys_aupdate (k : α) (v : β) (l : List (α × β)) :
    akeys (aupdate k v l) = akeys l := by
  unfold akeys aupdate
  rw [List.map_map]
  apply List.map_congr_left
  intro p _
  by_cases hp : p.1 = k
  · simp [hp]
  · simp [hp]

lemma mem_aupdate {q : α × β} {k : α} {v : β} {l : List (α × β)}
    (h : q ∈ aupdate k v l) : q = (k, v) ∨ (q ∈ l ∧ q.1 ≠ k) := by
  induction l with
  | nil => simp [aupdate] at h
  | cons p ps ih =>
    rw [aupdate, List.map_cons] at h
    rcases List.mem_cons.mp h with h | h
    · by_cases hp : p.1 = k
      · rw [if_pos hp] at h
        exact Or.inl h
      · rw [if_neg hp] at h
        exact Or.inr ⟨h ▸ List.mem_cons_self p ps, h ▸ hp⟩
    · rcases ih h with h2 | h2
      · exact Or.inl h2
      · exact Or.inr ⟨List.mem_cons_of_mem p h2.1, h2.2⟩

lemma mem_aerase {q : α × β} {k : α} {l : List (α × β)} :
    q ∈ aerase k l ↔ q ∈ l ∧ q.1 ≠ k := by
  simp [aerase, List.mem_filter]

lemma alookup_aerase_self (k : α) (l : List (α × β)) :
    alookup k (aerase k l) = none := by
  rw [alookup_eq_none_iff]
  intro p hp
  exact (mem_aerase.mp hp).2

lemma alookup_aerase_ne {j k : α} (hne : j ≠ k) (l : List (α × β)) :
    alookup j (aerase k l) = alookup j l := by
  induction l with
  | nil => rfl
  | cons p ps ih =>
    by_cases hp : p.1 = k
    · have h1 : aerase k (p :: ps) = aerase k ps := by
        rw [aerase, List.filter_cons, if_neg (by simp [hp])]
        rfl
      have h2 : alookup j (p :: ps) = alookup j ps := by
        rw [alookup, if_neg (fun he => hne (he.symm.trans hp))]
      rw [h1, h2, ih]
    · have h1 : aerase k (p :: ps) = p :: aerase k ps := by
        rw [aerase, List.filter_cons, if_pos (by simp [hp])]
        rfl
      rw [h1]
      by_cases hj : p.1 = j
      · rw [alookup, if_pos hj, alookup, if_pos hj]
      · rw [alookup, if_neg hj, alookup, if_neg hj]
        exact ih

lemma akeys_aerase_sublist (k : α) (l : List (α × β)) :
    (akeys (aerase k l)).Sublist (akeys l) :=
  (List.filter_sublist l).map Prod.fst

end AListLemmas

lemma akeys_append {α β : Type} (l1 l2 : List (α × β)) :
    akeys (l1 ++ l2) = akeys l1 ++ akeys l2 := by
  simp [akeys]

/-! ### Claim C9 -/

/-- Placeholder order, only the `Option.getD` default of `mkOrder` on
arguments that are proved valid. -/
def defOrder : Order :=
  { timestamp := 0, side := .Buy, quote_name := "", base_name := "",
    amount := 1, price := 0, id := 0, status := .Submitted, type := .Limit,
    stop_price := 0, filled := 0, transactions := [], fee := [] }

/-- The order a successful construction returns. -/
def mkOrder (a : OrderArgs) : Order := (Order.init a).toOption.getD defOrder

lemma Order.init_id {a : OrderArgs} {o : Order}
    (h : Order.init a = .ok o) : o.id = a.oid := by
  have hred : Order.init a =
      (if ¬ a.amount > 0 then .error .InvalidOrder
       else if ¬ ((if a.order_type = OrderType.Market then (0:ℚ) else a.price) ≥ 0 ∧
           (if a.order_type ≠ OrderType.StopLimit then (0:ℚ) else a.stop_price) ≥ 0) then
         .error .InvalidOrder
       else .ok
        { timestamp := a.timestamp
          side := a.side
          quote_name := a.quote_name
          base_name := a.base_name
          amount := a.amount
          price := if a.order_type = OrderType.Market then 0 else a.price
          id := a.oid
          status := .Submitted
          type := a.order_type
          stop_price := if a.order_type ≠ OrderType.StopLimit then 0 else a.stop_price
          filled := 0
          transactions := []
          fee := [] }) := rfl
  rw [hred] at h
  split_ifs at h <;> (rw [Except.ok.injEq] at h; subst h; rfl)

lemma addAll_eq (args : List OrderArgs) : ∀ (q : OrderQueue),
    (∀ a ∈ args, ∃ o, Order.init a = .ok o) →
    (∀ a ∈ args, ¬ a.oid ∈ akeys q.book) →
    (args.map OrderArgs.oid).Nodup →
    q.addAll args = .ok ⟨q.book ++ args.map (fun a => (a.oid, mkOrder a))⟩ := by
  induction args with
  | nil => intro q _ _ _; simp [OrderQueue.addAll]
  | cons a rest ih =>
    intro q hok hfresh hnd
    obtain ⟨o, ho⟩ := hok a (by simp)
    have hoid : o.id = a.oid := Order.init_id ho
    have hmk : mkOrder a = o := by simp [mkOrder, ho, Except.toOption]
    have hnone : alookup a.oid q.book = none := by
      rw [← Option.not_isSome_iff_eq_none]
      intro hs
      exact hfresh a (by simp) ((alookup_isSome_iff_mem a.oid q.book).mp hs)
    have hstep : q.add_new_order a = .ok (⟨q.book ++ [(a.oid, o)]⟩, a.oid) := by
      unfold OrderQueue.add_new_order
      rw [ho]
      show Except.ok ((⟨ainsert o.id o q.book⟩ : OrderQueue), o.id) = _
      rw [hoid, ainsert_of_none hnone]
    rw [OrderQueue.addAll, hstep]
    show (⟨q.book ++ [(a.oid, o)]⟩ : OrderQueue).addAll rest = _
    rw [List.map_cons, List.nodup_cons] at hnd
    have hres := ih ⟨q.book ++ [(a.oid, o)]⟩
      (fun b hb => hok b (List.mem_cons_of_mem a hb))
      (fun b hb => by
        rw [akeys_append]
        intro hmem
        rcases List.mem_append.mp hmem with hm | hm
        · exact hfresh b (List.mem_cons_of_mem a hb) hm
        · have : b.oid = a.oid := by simpa [akeys] using hm
          exact hnd.1 (this ▸ List.mem_map_of_mem OrderArgs.oid hb))
      hnd.2
    rw [hres, List.map_cons, hmk]
    simp

lemma drainFuel_full (l : List (ℕ × Order)) :
    OrderQueue.drainFuel l.length ⟨l⟩ = (l.map Prod.snd, ⟨[]⟩) := by
  induction l with
  | nil => rfl
  | cons p rest ih =>
    have hstep : OrderQueue.drainFuel (p :: rest).length ⟨p :: rest⟩ =
        (p.2 :: (OrderQueue.drainFuel rest.length ⟨rest⟩).1,
         (OrderQueue.drainFuel rest.length ⟨rest⟩).2) := rfl
    rw [hstep, ih]
    rfl

/-- Claim C9: adding N validly constructed orders with distinct fresh ids
to a fresh queue stores them in insertion order; N `pop_order` calls then
return exactly those orders in the order they were added, leaving the
empty queue; and `pop_order` on an empty queue fails with `EmptyQueue`. -/
theorem C9_queue_fifo (args : List OrderArgs)
    (hids : (args.map OrderArgs.oid).Nodup)
    (hok : ∀ a ∈ args, ∃ o, Order.init a = .ok o) :
    OrderQueue.init.addAll args =
      .ok ⟨args.map (fun a => (a.oid, mkOrder a))⟩ ∧
    OrderQueue.drainFuel args.length
        ⟨args.map (fun a => (a.oid, mkOrder a))⟩ =
      (args.map mkOrder, OrderQueue.init) ∧
    OrderQueue.init.pop_order = .error .EmptyQueue := by
  refine ⟨?_, ?_, rfl⟩
  · have h := addAll_eq args OrderQueue.init hok
      (by intro a _; simp [OrderQueue.init, akeys]) hids
    simpa [OrderQueue.init] using h
  · have h1 := drainFuel_full (args.map (fun a => (a.oid, mkOrder a)))
    rw [List.length_map] at h1
    rw [h1, List.map_map]
    rfl

/-- Witness for claim C9 on two concrete orders. -/
theorem C9_queue_fifo_witness :
    OrderQueue.init.addAll [limitArgs 1 10 3, limitArgs 2 11 5] =
      .ok ⟨[limitArgs 1 10 3, limitArgs 2 11 5].map
        (fun a => (a.oid, mkOrder a))⟩ ∧
    OrderQueue.drainFuel 2
        ⟨[limitArgs 1 10 3, limitArgs 2 11 5].map (fun a => (a.oid, mkOrder a))⟩ =
      ([limitArgs 1 10 3, limitArgs 2 11 5].map mkOrder, OrderQueue.init) :=
  ⟨(C9_queue_fifo [limitArgs 1 10 3, limitArgs 2 11 5] (by decide)
      (by
        intro a ha
        rcases List.mem_cons.mp ha with rfl | ha2
        · exact ⟨_, limitOrder_constructed 1 10 3 (by norm_num)⟩
        · rcases List.mem_cons.mp ha2 with rfl | ha3
          · exact ⟨_, limitOrder_constructed 2 11 5 (by norm_num)⟩
          · simp at ha3)).1,
   (C9_queue_fifo [limitArgs 1 10 3, limitArgs 2 11 5] (by decide)
      (by
        intro a ha
        rcases List.mem_cons.mp ha with rfl | ha2
        · exact ⟨_, limitOrder_constructed 1 10 3 (by norm_num)⟩
        · rcases List.mem_cons.mp ha2 with rfl | ha3
          · exact ⟨_, limitOrder_constructed 2 11 5 (by norm_num)⟩
          · simp at ha3)).2.1⟩

/-! ### Lemmas about the sorted key-list model -/

lemma mem_insertRight (key : ℕ → ℤ) (x a : ℕ) (l : List ℕ) :
    a ∈ insertRight key x l ↔ a = x ∨ a ∈ l := by
  induction l with
  | nil => simp [insertRight]
  | cons y ys ih =>
    rw [insertRight]
    split
    · simp [List.mem_cons]
    · simp only [List.mem_cons, ih]
      tauto

lemma nodup_insertRight (key : ℕ → ℤ) (x : ℕ) (l : List ℕ)
    (hx : ¬ x ∈ l) (h : l.Nodup) : (insertRight key x l).Nodup := by
  induction l with
  | nil => simp [insertRight]
  | cons y ys ih =>
    rw [List.nodup_cons] at h
    rw [insertRight]
    split
    · exact List.nodup_cons.mpr ⟨hx, List.nodup_cons.mpr h⟩
    · refine List.nodup_cons.mpr
        ⟨?_, ih (fun hm => hx (List.mem_cons_of_mem y hm)) h.2⟩
      intro hm
      rcases (mem_insertRight key x y ys).mp hm with h1 | h1
      · exact hx (h1 ▸ List.mem_cons_self y ys)
      · exact h.1 h1

lemma pairwise_insertRight (key : ℕ → ℤ) (x : ℕ) (l : List ℕ)
    (h : l.Pairwise (fun i j => key i ≤ key j)) :
    (insertRight key x l).Pairwise (fun i j => key i ≤ key j) := by
  induction l with
  | nil => simp [insertRight]
  | cons y ys ih =>
    rw [List.pairwise_cons] at h
    rw [insertRight]
    split
    · next hlt =>
      refine List.pairwise_cons.mpr ⟨?_, List.pairwise_cons.mpr h⟩
      intro b hb
      rcases List.mem_cons.mp hb with rfl | hb2
      · exact le_of_lt hlt
      · exact le_trans (le_of_lt hlt) (h.1 b hb2)
    · next hge =>
      refine List.pairwise_cons.mpr ⟨?_, ih h.2⟩
      intro b hb
      rcases (mem_insertRight key x b ys).mp hb with rfl | hb2
      · exact not_lt.mp hge
      · exact h.1 b hb2

lemma mem_lerase (x a : ℕ) (l : List ℕ) :
    a ∈ lerase x l ↔ a ∈ l ∧ a ≠ x := by
  simp [lerase, List.mem_filter]

lemma lerase_sublist (x : ℕ) (l : List ℕ) : (lerase x l).Sublist l :=
  List.filter_sublist l

lemma pairwise_key_congr {l : List ℕ} {k1 k2 : ℕ → ℤ}
    (h : l.Pairwise (fun i j => k1 i ≤ k1 j)) (he : ∀ i ∈ l, k2 i = k1 i) :
    l.Pairwise (fun i j => k2 i ≤ k2 j) :=
  List.Pairwise.imp_of_mem
    (fun ha hb hr => by rw [he _ ha, he _ hb]; exact hr) h

/-! ### The order-book consistency invariant -/

/-- The strengthened induction invariant of the order book: the dict key
sets are duplicate-free, the time index stores exactly the ids of the
primary map, each per-symbol index stores exactly the stored orders of its
symbol, and both kinds of index are sorted by the timestamp key function. -/
structure BookInv (b : OrderBook) : Prop where
  bookNodup : (akeys b.book).Nodup
  timeNodup : b.time_dict.Nodup
  symKeysNodup : (akeys b.symbol_dict).Nodup
  symNodup : ∀ p ∈ b.symbol_dict, p.2.Nodup
  timeMem : ∀ i, i ∈ b.time_dict ↔ (alookup i b.book).isSome = true
  symSound : ∀ p ∈ b.symbol_dict, ∀ i ∈ p.2,
    ∃ o, alookup i b.book = some o ∧ Order.symbol o = p.1
  symComplete : ∀ i o, alookup i b.book = some o →
    ∃ l, alookup (Order.symbol o) b.symbol_dict = some l ∧ i ∈ l
  timeSorted : b.time_dict.Pairwise (fun i j => tsKey b.book i ≤ tsKey b.book j)
  symSorted : ∀ p ∈ b.symbol_dict,
    p.2.Pairwise (fun i j => tsKey b.book i ≤ tsKey b.book j)

lemma bookInv_init : BookInv OrderBook.init := by
  constructor <;> simp [OrderBook.init, akeys, alookup]

lemma bookInv_insert (b : OrderBook) (o : Order) (hinv : BookInv b)
    (hfresh : alookup o.id b.book = none) : BookInv (b.insert_order o) := by
  have hbook1 : (b.insert_order o).book = b.book ++ [(o.id, o)] := by
    simp only [OrderBook.insert_order]
    exact ainsert_of_none hfresh o
  have hlookup_self : alookup o.id (b.book ++ [(o.id, o)]) = some o := by
    rw [alookup_append_of_none hfresh]
    simp [alookup]
  have hchar : ∀ i w, alookup i (b.book ++ [(o.id, o)]) = some w →
      alookup i b.book = some w ∨ (i = o.id ∧ w = o) := by
    intro i w hw
    cases halt : alookup i b.book with
    | some v =>
      rw [alookup_append_of_isSome halt] at hw
      rw [Option.some.injEq] at hw
      exact Or.inl (congrArg some hw)
    | none =>
      rw [alookup_append_of_none halt] at hw
      by_cases hio : o.id = i
      · rw [alookup, if_pos hio, Option.some.injEq] at hw
        exact Or.inr ⟨hio.symm, hw.symm⟩
      · rw [alookup, if_neg hio] at hw
        exact absurd hw (by simp [alookup])
  have hts_old : ∀ i, (alookup i b.book).isSome = true →
      tsKey (b.book ++ [(o.id, o)]) i = tsKey b.book i := by
    intro i hi
    obtain ⟨w, hw⟩ := Option.isSome_iff_exists.mp hi
    unfold tsKey
    rw [hw, alookup_append_of_isSome hw]
  have hid_time : ¬ o.id ∈ b.time_dict := by
    intro hm
    have hs := (hinv.timeMem o.id).mp hm
    rw [hfresh] at hs
    simp at hs
  have htime1 : (b.insert_order o).time_dict =
      insertRight (tsKey (b.book ++ [(o.id, o)])) o.id b.time_dict := by
    simp only [OrderBook.insert_order]
    rw [sdInsert, if_neg hid_time, ainsert_of_none hfresh]
  have f_bookNodup : (akeys (b.book ++ [(o.id, o)])).Nodup := by
    rw [akeys_append, List.nodup_append]
    refine ⟨hinv.bookNodup, by simp [akeys], ?_⟩
    intro a ha hmem
    have hmm : a ∈ [o.id] := hmem
    have hae : a = o.id := by simpa using hmm
    subst hae
    have hs := (alookup_isSome_iff_mem o.id b.book).mpr ha
    rw [hfresh] at hs
    simp at hs
  have f_timeNodup :
      (insertRight (tsKey (b.book ++ [(o.id, o)])) o.id b.time_dict).Nodup :=
    nodup_insertRight _ o.id b.time_dict hid_time hinv.timeNodup
  have f_timeMem : ∀ i,
      i ∈ insertRight (tsKey (b.book ++ [(o.id, o)])) o.id b.time_dict ↔
      (alookup i (b.book ++ [(o.id, o)])).isSome = true := by
    intro i
    rw [mem_insertRight]
    constructor
    · rintro (rfl | hm)
      · rw [hlookup_self]
        rfl
      · obtain ⟨w, hw⟩ := Option.isSome_iff_exists.mp ((hinv.timeMem i).mp hm)
        rw [alookup_append_of_isSome hw]
        rfl
    · intro hs
      obtain ⟨w, hw⟩ := Option.isSome_iff_exists.mp hs
      rcases hchar i w hw with h1 | h1
      · refine Or.inr ((hinv.timeMem i).mpr ?_)
        rw [h1]
        rfl
      · exact Or.inl h1.1
  have f_timeSorted :
      (insertRight (tsKey (b.book ++ [(o.id, o)])) o.id b.time_dict).Pairwise
        (fun i j => tsKey (b.book ++ [(o.id, o)]) i ≤
          tsKey (b.book ++ [(o.id, o)]) j) := by
    apply pairwise_insertRight
    apply pairwise_key_congr hinv.timeSorted
    intro i hi
    exact hts_old i ((hinv.timeMem i).mp hi)
  cases hsy : alookup (Order.symbol o) b.symbol_dict with
  | none =>
    have hsym1 : (b.insert_order o).symbol_dict =
        b.symbol_dict ++ [(Order.symbol o, [o.id])] := by
      simp only [OrderBook.insert_order, hsy]
    have hsymname_fresh : ¬ Order.symbol o ∈ akeys b.symbol_dict := by
      intro hm
      have hs := (alookup_isSome_iff_mem (Order.symbol o) b.symbol_dict).mpr hm
      rw [hsy] at hs
      simp at hs
    have hb : b.insert_order o =
        ⟨b.book ++ [(o.id, o)],
         insertRight (tsKey (b.book ++ [(o.id, o)])) o.id b.time_dict,
         b.symbol_dict ++ [(Order.symbol o, [o.id])]⟩ := by
      rw [show b.insert_order o = ⟨(b.insert_order o).book,
        (b.insert_order o).time_dict, (b.insert_order o).symbol_dict⟩ from rfl,
        hbook1, htime1, hsym1]
    rw [hb]
    refine ⟨f_bookNodup, f_timeNodup, ?_, ?_, f_timeMem, ?_, ?_, f_timeSorted, ?_⟩
    · rw [show akeys (b.symbol_dict ++ [(Order.symbol o, [o.id])]) =
        akeys b.symbol_dict ++ [Order.symbol o] from akeys_append _ _]
      rw [List.nodup_append]
      refine ⟨hinv.symKeysNodup, by simp, ?_⟩
      intro a ha hmem
      have hae : a = Order.symbol o := by simpa using hmem
      subst hae
      exact hsymname_fresh ha
    · intro p hp
      rcases List.mem_append.mp hp with hp | hp
      · exact hinv.symNodup p hp
      · have hpe : p = (Order.symbol o, [o.id]) := by simpa using hp
        subst hpe
        simp
    · intro p hp i hi
      rcases List.mem_append.mp hp with hp | hp
      · obtain ⟨w, hw, hs⟩ := hinv.symSound p hp i hi
        exact ⟨w, alookup_append_of_isSome hw _, hs⟩
      · have hpe : p = (Order.symbol o, [o.id]) := by simpa using hp
        subst hpe
        have hie : i = o.id := by simpa using hi
        subst hie
        exact ⟨o, hlookup_self, rfl⟩
    · intro i w hw
      rcases hchar i w hw with h1 | h1
      · obtain ⟨l, hl, hil⟩ := hinv.symComplete i w h1
        exact ⟨l, alookup_append_of_isSome hl _, hil⟩
      · obtain ⟨hie, hwe⟩ := h1
        subst hie
        rw [hwe]
        refine ⟨[o.id], ?_, by simp⟩
        rw [alookup_append_of_none hsy]
        simp [alookup]
    · intro p hp
      rcases List.mem_append.mp hp with hp | hp
      · apply pairwise_key_congr (hinv.symSorted p hp)
        intro i hi
        obtain ⟨w, hw, _⟩ := hinv.symSound p hp i hi
        refine hts_old i ?_
        rw [hw]
        rfl
      · have hpe : p = (Order.symbol o, [o.id]) := by simpa using hp
        subst hpe
        simp
  | some l =>
    have hpl : (Order.symbol o, l) ∈ b.symbol_dict := alookup_mem hsy
    have hidl : ¬ o.id ∈ l := by
      intro hm
      obtain ⟨w, hw, _⟩ := hinv.symSound _ hpl o.id hm
      rw [hfresh] at hw
      exact absurd hw (by simp)
    have hsym1 : (b.insert_order o).symbol_dict =
        aupdate (Order.symbol o)
          (insertRight (tsKey (b.book ++ [(o.id, o)])) o.id l) b.symbol_dict := by
      simp only [OrderBook.insert_order, hsy]
      rw [sdInsert, if_neg hidl, ainsert_of_none hfresh]
    have hb : b.insert_order o =
        ⟨b.book ++ [(o.id, o)],
         insertRight (tsKey (b.book ++ [(o.id, o)])) o.id b.time_dict,
         aupdate (Order.symbol o)
           (insertRight (tsKey (b.book ++ [(o.id, o)])) o.id l) b.symbol_dict⟩ := by
      rw [show b.insert_order o = ⟨(b.insert_order o).book,
        (b.insert_order o).time_dict, (b.insert_order o).symbol_dict⟩ from rfl,
        hbook1, htime1, hsym1]
    rw [hb]
    refine ⟨f_bookNodup, f_timeNodup, ?_, ?_, f_timeMem, ?_, ?_, f_timeSorted, ?_⟩
    · rw [show akeys (aupdate (Order.symbol o)
        (insertRight (tsKey (b.book ++ [(o.id, o)])) o.id l) b.symbol_dict) =
        akeys b.symbol_dict from akeys_aupdate _ _ _]
      exact hinv.symKeysNodup
    · intro p hp
      rcases mem_aupdate hp with rfl | ⟨hp2, _⟩
      · exact nodup_insertRight _ o.id l hidl (hinv.symNodup _ hpl)
      · exact hinv.symNodup p hp2
    · intro p hp i hi
      rcases mem_aupdate hp with rfl | ⟨hp2, _⟩
      · rcases (mem_insertRight _ o.id i l).mp hi with rfl | hil
        · exact ⟨o, hlookup_self, rfl⟩
        · obtain ⟨w, hw, hs⟩ := hinv.symSound _ hpl i hil
          exact ⟨w, alookup_append_of_isSome hw _, hs⟩
      · obtain ⟨w, hw, hs⟩ := hinv.symSound p hp2 i hi
        exact ⟨w, alookup_append_of_isSome hw _, hs⟩
    · intro i w hw
      rcases hchar i w hw with h1 | h1
      · obtain ⟨l2, hl2, hil2⟩ := hinv.symComplete i w h1
        by_cases hseq : Order.symbol w = Order.symbol o
        · rw [hseq] at hl2
          have hll : l2 = l := by
            rw [hl2] at hsy
            exact (Option.some.injEq _ _).mp hsy
          refine ⟨insertRight (tsKey (b.book ++ [(o.id, o)])) o.id l, ?_, ?_⟩
          · rw [hseq]
            exact alookup_aupdate_self hsy _
          · exact (mem_insertRight _ o.id i l).mpr (Or.inr (hll ▸ hil2))
        · refine ⟨l2, ?_, hil2⟩
          rw [alookup_aupdate_ne hseq]
          exact hl2
      · obtain ⟨hie, hwe⟩ := h1
        subst hie
        rw [hwe]
        exact ⟨insertRight (tsKey (b.book ++ [(o.id, o)])) o.id l,
          alookup_aupdate_self hsy _,
          (mem_insertRight _ o.id o.id l).mpr (Or.inl rfl)⟩
    · intro p hp
      rcases mem_aupdate hp with rfl | ⟨hp2, _⟩
      · apply pairwise_insertRight
        apply pairwise_key_congr (hinv.symSorted _ hpl)
        intro i hi
        obtain ⟨w, hw, _⟩ := hinv.symSound _ hpl i hi
        refine hts_old i ?_
        rw [hw]
        rfl
      · apply pairwise_key_congr (hinv.symSorted p hp2)
        intro i hi
        obtain ⟨w, hw, _⟩ := hinv.symSound p hp2 i hi
        refine hts_old i ?_
        rw [hw]
        rfl

lemma remove_eq (b : OrderBook) (o : Order) (hinv : BookInv b)
    (hmem : alookup o.id b.book = some o) :
    ∃ l, alookup (Order.symbol o) b.symbol_dict = some l ∧ o.id ∈ l ∧
      b.remove_order o =
        (⟨aerase o.id b.book, lerase o.id b.time_dict,
          aupdate (Order.symbol o) (lerase o.id l) b.symbol_dict⟩, none) := by
  obtain ⟨l, hl, hil⟩ := hinv.symComplete o.id o hmem
  refine ⟨l, hl, hil, ?_⟩
  have ht : o.id ∈ b.time_dict := by
    refine (hinv.timeMem o.id).mpr ?_
    rw [hmem]
    rfl
  have s1 : removeStepApply o b RemoveStep.delTime =
      (⟨b.book, lerase o.id b.time_dict, b.symbol_dict⟩, none) := by
    simp only [removeStepApply]
    rw [if_pos ht]
  have s2 : removeStepApply o
      ⟨b.book, lerase o.id b.time_dict, b.symbol_dict⟩ RemoveStep.delSymbol =
      (⟨b.book, lerase o.id b.time_dict,
        aupdate (Order.symbol o) (lerase o.id l) b.symbol_dict⟩, none) := by
    simp only [removeStepApply, hl]
    rw [if_pos hil]
  have s3 : removeStepApply o
      ⟨b.book, lerase o.id b.time_dict,
        aupdate (Order.symbol o) (lerase o.id l) b.symbol_dict⟩
      RemoveStep.delBook =
      (⟨aerase o.id b.book, lerase o.id b.time_dict,
        aupdate (Order.symbol o) (lerase o.id l) b.symbol_dict⟩, none) := by
    simp only [removeStepApply]
    rw [if_pos (by rw [hmem]; rfl)]
  simp only [OrderBook.remove_order, removeOrderSteps, runRemoveSteps, s1, s2, s3]

lemma bookInv_remove (b : OrderBook) (o : Order) (hinv : BookInv b)
    (hmem : alookup o.id b.book = some o) : BookInv (b.remove_order o).1 := by
  obtain ⟨l, hl, hil, heq⟩ := remove_eq b o hinv hmem
  have hpl : (Order.symbol o, l) ∈ b.symbol_dict := alookup_mem hl
  have htsE : ∀ i, i ≠ o.id → tsKey (aerase o.id b.book) i = tsKey b.book i := by
    intro i hne
    unfold tsKey
    rw [alookup_aerase_ne hne]
  have hold_ne : ∀ p ∈ b.symbol_dict, ¬ p.1 = Order.symbol o →
      ∀ i ∈ p.2, i ≠ o.id := by
    intro p hp hne i hi hie
    obtain ⟨w, hw, hs⟩ := hinv.symSound p hp i hi
    rw [hie, hmem, Option.some.injEq] at hw
    exact hne (hs ▸ hw ▸ rfl)
  rw [heq]
  refine ⟨?_, ?_, ?_, ?_, ?_, ?_, ?_, ?_, ?_⟩
  · exact List.Nodup.sublist (akeys_aerase_sublist o.id b.book) hinv.bookNodup
  · exact List.Nodup.sublist (lerase_sublist o.id b.time_dict) hinv.timeNodup
  · rw [show akeys (aupdate (Order.symbol o) (lerase o.id l) b.symbol_dict) =
      akeys b.symbol_dict from akeys_aupdate _ _ _]
    exact hinv.symKeysNodup
  · intro p hp
    rcases mem_aupdate hp with rfl | ⟨hp2, _⟩
    · exact List.Nodup.sublist (lerase_sublist o.id l) (hinv.symNodup _ hpl)
    · exact hinv.symNodup p hp2
  · intro i
    rw [mem_lerase]
    constructor
    · rintro ⟨hm, hne⟩
      rw [alookup_aerase_ne hne]
      exact (hinv.timeMem i).mp hm
    · intro hs
      by_cases hne : i = o.id
      · rw [hne, alookup_aerase_self] at hs
        simp at hs
      · rw [alookup_aerase_ne hne] at hs
        exact ⟨(hinv.timeMem i).mpr hs, hne⟩
  · intro p hp i hi
    rcases mem_aupdate hp with rfl | ⟨hp2, hne⟩
    · rw [mem_lerase] at hi
      obtain ⟨w, hw, hs⟩ := hinv.symSound _ hpl i hi.1
      exact ⟨w, by rw [alookup_aerase_ne hi.2]; exact hw, hs⟩
    · have hine : i ≠ o.id := hold_ne p hp2 hne i hi
      obtain ⟨w, hw, hs⟩ := hinv.symSound p hp2 i hi
      exact ⟨w, by rw [alookup_aerase_ne hine]; exact hw, hs⟩
  · intro i w hw
    by_cases hne : i = o.id
    · rw [hne, alookup_aerase_self] at hw
      exact absurd hw (by simp)
    · rw [alookup_aerase_ne hne] at hw
      obtain ⟨l2, hl2, hil2⟩ := hinv.symComplete i w hw
      by_cases hseq : Order.symbol w = Order.symbol o
      · rw [hseq] at hl2
        have hll : l2 = l := by
          rw [hl2] at hl
          exact (Option.some.injEq _ _).mp hl
        refine ⟨lerase o.id l, ?_, ?_⟩
        · rw [hseq]
          exact alookup_aupdate_self hl2 _
        · rw [mem_lerase]
          exact ⟨hll ▸ hil2, hne⟩
      · refine ⟨l2, ?_, hil2⟩
        rw [alookup_aupdate_ne hseq]
        exact hl2
  · apply pairwise_key_congr
      (List.Pairwise.sublist (lerase_sublist o.id b.time_dict) hinv.timeSorted)
    intro i hi
    exact htsE i (mem_lerase o.id i b.time_dict |>.mp hi).2
  · intro p hp
    rcases mem_aupdate hp with rfl | ⟨hp2, hne⟩
    · apply pairwise_key_congr
        (List.Pairwise.sublist (lerase_sublist o.id l) (hinv.symSorted _ hpl))
      intro i hi
      exact htsE i (mem_lerase o.id i l |>.mp hi).2
    · apply pairwise_key_congr (hinv.symSorted p hp2)
      intro i hi
      exact htsE i (hold_ne p hp2 hne i hi)

lemma bookInv_applyOps : ∀ (ops : List BookOp) (b : OrderBook), BookInv b →
    validSeq b ops = true → BookInv (applyOps b ops) := by
  intro ops
  induction ops with
  | nil => intro b h _; exact h
  | cons op rest ih =>
    intro b hinv hv
    rw [validSeq, Bool.and_eq_true] at hv
    have h1 : BookInv (applyOp b op) := by
      cases op with
      | ins o =>
        refine bookInv_insert b o hinv ?_
        have := hv.1
        rw [validOp, Option.isNone_iff_eq_none] at this
        exact this
      | rem o =>
        refine bookInv_remove b o hinv ?_
        have := hv.1
        rw [validOp, decide_eq_true_eq] at this
        exact this
    exact ih (applyOp b op) h1 hv.2

/-! ### Claim C1 -/

/-- Claim C1: after any valid sequence of `insert_order` / `remove_order`
calls on a fresh order book (inserts of orders with fresh process-unique
ids, removals of stored orders), the set of ids of the primary map, the
set of ids of the global time index and the union of the id sets of the
per-symbol indices coincide, and every stored id lies in exactly one
per-symbol index. -/
theorem C1_book_consistency (ops : List BookOp)
    (h : validSeq OrderBook.init ops = true) :
    (∀ i, i ∈ akeys (applyOps OrderBook.init ops).book ↔
      i ∈ (applyOps OrderBook.init ops).time_dict) ∧
    (∀ i, i ∈ akeys (applyOps OrderBook.init ops).book ↔
      i ∈ symbolUnion (applyOps OrderBook.init ops)) ∧
    (∀ i, i ∈ akeys (applyOps OrderBook.init ops).book →
      ∃! s, ∃ l, alookup s (applyOps OrderBook.init ops).symbol_dict = some l ∧
        i ∈ l) := by
  have hinv := bookInv_applyOps ops OrderBook.init bookInv_init h
  set b := applyOps OrderBook.init ops with hbdef
  refine ⟨?_, ?_, ?_⟩
  · intro i
    rw [← alookup_isSome_iff_mem]
    exact (hinv.timeMem i).symm
  · intro i
    constructor
    · intro hm
      obtain ⟨w, hw⟩ := Option.isSome_iff_exists.mp
        ((alookup_isSome_iff_mem i b.book).mpr hm)
      obtain ⟨l, hl, hil⟩ := hinv.symComplete i w hw
      exact List.mem_flatMap.mpr ⟨(Order.symbol w, l), alookup_mem hl, hil⟩
    · intro hm
      obtain ⟨p, hp, hip⟩ := List.mem_flatMap.mp hm
      obtain ⟨w, hw, _⟩ := hinv.symSound p hp i hip
      refine (alookup_isSome_iff_mem i b.book).mp ?_
      rw [hw]
      rfl
  · intro i hm
    obtain ⟨w, hw⟩ := Option.isSome_iff_exists.mp
      ((alookup_isSome_iff_mem i b.book).mpr hm)
    obtain ⟨l, hl, hil⟩ := hinv.symComplete i w hw
    refine ⟨Order.symbol w, ⟨l, hl, hil⟩, ?_⟩
    rintro s ⟨l2, hl2, hil2⟩
    obtain ⟨w2, hw2, hs2⟩ := hinv.symSound (s, l2) (alookup_mem hl2) i hil2
    rw [hw, Option.some.injEq] at hw2
    have hs3 : Order.symbol w2 = s := hs2
    rw [← hs3, hw2]

/-- Witness for claim C1 after inserting two orders and removing one. -/
theorem C1_book_consistency_witness :
    (ordOne.id ∈ akeys (applyOps OrderBook.init
        [BookOp.ins ordTen, BookOp.ins ordOne, BookOp.rem ordTen]).book ↔
      ordOne.id ∈ (applyOps OrderBook.init
        [BookOp.ins ordTen, BookOp.ins ordOne, BookOp.rem ordTen]).time_dict) :=
  (C1_book_consistency [BookOp.ins ordTen, BookOp.ins ordOne, BookOp.rem ordTen]
    (by decide)).1 ordOne.id

/-! ### Claim C10 -/

/-- Claim C10: on any reachable book, removing an order whose id is not in
the primary map fails with a key lookup error on the very first deletion
statement, and the returned state is exactly the input state - nothing is
mutated. -/
theorem C10_remove_absent_unchanged (b : OrderBook) (o : Order)
    (hr : Reachable b) (h : alookup o.id b.book = none) :
    b.remove_order o = (b, some Err.KeyError) := by
  obtain ⟨ops, hv, rfl⟩ := hr
  have hinv := bookInv_applyOps ops OrderBook.init bookInv_init hv
  have ht : ¬ o.id ∈ (applyOps OrderBook.init ops).time_dict := by
    intro hm
    have hs := (hinv.timeMem o.id).mp hm
    rw [h] at hs
    simp at hs
  have s1 : removeStepApply o (applyOps OrderBook.init ops) RemoveStep.delTime =
      (applyOps OrderBook.init ops, some Err.KeyError) := by
    simp only [removeStepApply]
    rw [if_neg ht]
  simp only [OrderBook.remove_order, removeOrderSteps, runRemoveSteps, s1]

/-- Witness for claim C10: removing an order from the fresh (empty) book. -/
theorem C10_remove_absent_unchanged_witness :
    OrderBook.init.remove_order ordTen = (OrderBook.init, some Err.KeyError) :=
  C10_remove_absent_unchanged OrderBook.init ordTen ⟨[], rfl, rfl⟩ rfl

/-! ### Claim C4 -/

/-- Claim C4 as frozen is false: the first deletion statement of
`remove_order` acts on the global time index, not on the per-symbol index -
after that first statement the per-symbol indices are untouched while the
time index has lost the id.  (The claim's order, per-symbol first, is not
the source's.) -/
theorem C4_removal_order_cex :
    removeOrderSteps ≠
      [RemoveStep.delSymbol, RemoveStep.delTime, RemoveStep.delBook] ∧
    removeOrderSteps =
      [RemoveStep.delTime, RemoveStep.delSymbol, RemoveStep.delBook] ∧
    (removeStepApply ordTen (OrderBook.init.insert_order ordTen)
        RemoveStep.delTime).1.symbol_dict =
      (OrderBook.init.insert_order ordTen).symbol_dict ∧
    (removeStepApply ordTen (OrderBook.init.insert_order ordTen)
        RemoveStep.delTime).1.time_dict ≠
      (OrderBook.init.insert_order ordTen).time_dict := by
  refine ⟨by decide, rfl, by decide, by decide⟩

/-- Claim C4 amended: `remove_order` runs exactly three deletion
statements, in this order: first the id leaves the global time index (the
primary map and the per-symbol indices are untouched at that point), then
the per-symbol index (primary map still untouched), and last the primary
map; on an order stored in the book every step succeeds. -/
theorem C4_removal_order_amended (b : OrderBook) (o : Order) (l : List ℕ)
    (ht : o.id ∈ b.time_dict)
    (hl : alookup (Order.symbol o) b.symbol_dict = some l)
    (hil : o.id ∈ l)
    (hb : (alookup o.id b.book).isSome = true) :
    removeOrderSteps =
      [RemoveStep.delTime, RemoveStep.delSymbol, RemoveStep.delBook] ∧
    removeStepApply o b RemoveStep.delTime =
      (⟨b.book, lerase o.id b.time_dict, b.symbol_dict⟩, none) ∧
    removeStepApply o ⟨b.book, lerase o.id b.time_dict, b.symbol_dict⟩
        RemoveStep.delSymbol =
      (⟨b.book, lerase o.id b.time_dict,
        aupdate (Order.symbol o) (lerase o.id l) b.symbol_dict⟩, none) ∧
    removeStepApply o ⟨b.book, lerase o.id b.time_dict,
        aupdate (Order.symbol o) (lerase o.id l) b.symbol_dict⟩
        RemoveStep.delBook =
      (⟨aerase o.id b.book, lerase o.id b.time_dict,
        aupdate (Order.symbol o) (lerase o.id l) b.symbol_dict⟩, none) ∧
    b.remove_order o =
      (⟨aerase o.id b.book, lerase o.id b.time_dict,
        aupdate (Order.symbol o) (lerase o.id l) b.symbol_dict⟩, none) := by
  have s1 : removeStepApply o b RemoveStep.delTime =
      (⟨b.book, lerase o.id b.time_dict, b.symbol_dict⟩, none) := by
    simp only [removeStepApply]
    rw [if_pos ht]
  have s2 : removeStepApply o ⟨b.book, lerase o.id b.time_dict, b.symbol_dict⟩
      RemoveStep.delSymbol =
      (⟨b.book, lerase o.id b.time_dict,
        aupdate (Order.symbol o) (lerase o.id l) b.symbol_dict⟩, none) := by
    simp only [removeStepApply, hl]
    rw [if_pos hil]
  have s3 : removeStepApply o ⟨b.book, lerase o.id b.time_dict,
      aupdate (Order.symbol o) (lerase o.id l) b.symbol_dict⟩
      RemoveStep.delBook =
      (⟨aerase o.id b.book, lerase o.id b.time_dict,
        aupdate (Order.symbol o) (lerase o.id l) b.symbol_dict⟩, none) := by
    simp only [removeStepApply]
    rw [if_pos hb]
  refine ⟨rfl, s1, s2, s3, ?_⟩
  simp only [OrderBook.remove_order, removeOrderSteps, runRemoveSteps, s1, s2, s3]

/-- Witness for the amended claim C4 on a one-order book. -/
theorem C4_removal_order_amended_witness :
    (OrderBook.init.insert_order ordTen).remove_order ordTen =
      (⟨aerase ordTen.id (OrderBook.init.insert_order ordTen).book,
        lerase ordTen.id (OrderBook.init.insert_order ordTen).time_dict,
        aupdate (Order.symbol ordTen) (lerase ordTen.id [ordTen.id])
          (OrderBook.init.insert_order ordTen).symbol_dict⟩, none) :=
  (C4_removal_order_amended (OrderBook.init.insert_order ordTen) ordTen
    [ordTen.id] (by decide) (by decide) (by decide) (by decide)).2.2.2.2

/-! ### Claim C5 -/

/-- The ordering claimed by the spec's words: ascending in the pair
`(timestamp, id)`, with the id as tiebreaker.  Stated over the book's own
timestamp key so it can be compared with what `get_orders` returns. -/
def sortedByTsId (b : OrderBook) (l : List ℕ) : Prop :=
  l.Pairwise (fun i j => tsKey b.book i < tsKey b.book j ∨
    (tsKey b.book i = tsKey b.book j ∧ i < j))

lemma pySliceLast_min (k : ℤ) (hk : 0 < k) (l : List ℕ) :
    pySliceLast (min k (l.length : ℤ)).toNat l =
      l.drop (l.length - k.toNat) := by
  rw [pySliceLast]
  split_ifs with h0
  · have h1 : min k (l.length : ℤ) ≤ 0 := Int.toNat_eq_zero.mp h0
    rcases min_le_iff.mp h1 with h2 | h2
    · exact absurd hk (not_lt.mpr h2)
    · have hl0 : l.length = 0 := by omega
      rw [List.length_eq_zero.mp hl0]
      simp
  · congr 1
    rcases le_or_lt k (l.length : ℤ) with hc | hc
    · rw [min_eq_left hc]
    · rw [min_eq_right hc.le]
      omega

/-- Claim C5 as frozen is false: on the reachable book holding two orders
with the same timestamp inserted in decreasing id order, `get_orders`
returns the ids in insertion order, which is not ascending in
`(timestamp, id)`. -/
theorem C5_get_orders_tie_cex :
    validSeq OrderBook.init [BookOp.ins ordTen, BookOp.ins ordOne] = true ∧
    (applyOps OrderBook.init
        [BookOp.ins ordTen, BookOp.ins ordOne]).get_orders "" 0 =
      [ordTen.id, ordOne.id] ∧
    ¬ sortedByTsId (applyOps OrderBook.init [BookOp.ins ordTen, BookOp.ins ordOne])
      ((applyOps OrderBook.init
        [BookOp.ins ordTen, BookOp.ins ordOne]).get_orders "" 0) := by
  refine ⟨by decide, by decide, ?_⟩
  intro hs
  rw [sortedByTsId, show (applyOps OrderBook.init
      [BookOp.ins ordTen, BookOp.ins ordOne]).get_orders "" 0 =
    [ordTen.id, ordOne.id] from by decide] at hs
  obtain ⟨hrel, _⟩ := List.pairwise_cons.mp hs
  have hro := hrel ordOne.id (by simp)
  rcases hro with h | h
  · revert h
    decide
  · exact absurd h.2 (by decide)

/-- Claim C5 amended: on every reachable book state, `get_orders` with
empty symbol and nonpositive limit returns exactly the global time index,
whose ids are in nondecreasing timestamp order (ids with equal timestamps
stay in insertion order - the id is not a tiebreaker); a positive limit k
returns the last k entries of that list, clamped, still in index order; a
non-empty symbol without an index yields the empty list, and a symbol with
an index gets the same treatment over that per-symbol index. -/
theorem C5_get_orders_amended (ops : List BookOp)
    (h : validSeq OrderBook.init ops = true) (s : String) (k : ℤ) :
    (applyOps OrderBook.init ops).get_orders "" 0 =
      (applyOps OrderBook.init ops).time_dict ∧
    ((applyOps OrderBook.init ops).get_orders "" 0).Pairwise
      (fun i j => tsKey (applyOps OrderBook.init ops).book i ≤
        tsKey (applyOps OrderBook.init ops).book j) ∧
    (0 < k → (applyOps OrderBook.init ops).get_orders "" k =
      ((applyOps OrderBook.init ops).get_orders "" 0).drop
        (((applyOps OrderBook.init ops).get_orders "" 0).length - k.toNat)) ∧
    (s ≠ "" → alookup s (applyOps OrderBook.init ops).symbol_dict = none →
      (applyOps OrderBook.init ops).get_orders s k = []) ∧
    (∀ l, s ≠ "" → alookup s (applyOps OrderBook.init ops).symbol_dict = some l →
      (applyOps OrderBook.init ops).get_orders s 0 = l ∧
      l.Pairwise (fun i j => tsKey (applyOps OrderBook.init ops).book i ≤
        tsKey (applyOps OrderBook.init ops).book j) ∧
      (0 < k → (applyOps OrderBook.init ops).get_orders s k =
        l.drop (l.length - k.toNat))) := by
  have hinv := bookInv_applyOps ops OrderBook.init bookInv_init h
  set b := applyOps OrderBook.init ops with hbdef
  have hall : b.get_orders "" 0 = b.time_dict := by
    simp [OrderBook.get_orders]
  have hlen : b.time_dict.length = b.book.length := by
    have hperm : b.time_dict.Perm (akeys b.book) :=
      (List.perm_ext_iff_of_nodup hinv.timeNodup hinv.bookNodup).mpr
        (fun i => by rw [hinv.timeMem i, alookup_isSome_iff_mem])
    rw [hperm.length_eq]
    exact List.length_map _ _
  refine ⟨hall, ?_, ?_, ?_, ?_⟩
  · rw [hall]
    exact hinv.timeSorted
  · intro hk
    rw [hall]
    have hne : ¬ k ≤ 0 := not_le.mpr hk
    rw [show b.get_orders "" k =
      pySliceLast (min k (b.book.length : ℤ)).toNat b.time_dict from by
        simp [OrderBook.get_orders, hne]]
    rw [← hlen]
    exact pySliceLast_min k hk b.time_dict
  · intro hs hnone
    simp [OrderBook.get_orders, hs, hnone]
  · intro l hs hsome
    have hpl : (s, l) ∈ b.symbol_dict := alookup_mem hsome
    refine ⟨by simp [OrderBook.get_orders, hs, hsome], ?_, ?_⟩
    · exact hinv.symSorted (s, l) hpl
    · intro hk
      have hne : ¬ k ≤ 0 := not_le.mpr hk
      rw [show b.get_orders s k =
        pySliceLast (min k (l.length : ℤ)).toNat l from by
          simp [OrderBook.get_orders, hs, hsome, hne]]
      exact pySliceLast_min k hk l

/-- Witness for the amended claim C5: the tail slice of the two-order book. -/
theorem C5_get_orders_amended_witness :
    (applyOps OrderBook.init
        [BookOp.ins ordTen, BookOp.ins ordOne]).get_orders "" 1 =
      ((applyOps OrderBook.init
        [BookOp.ins ordTen, BookOp.ins ordOne]).get_orders "" 0).drop
        (((applyOps OrderBook.init
          [BookOp.ins ordTen, BookOp.ins ordOne]).get_orders "" 0).length -
          (1:ℤ).toNat) :=
  ((C5_get_orders_amended [BookOp.ins ordTen, BookOp.ins ordOne] (by decide)
    "" 1).2.2.1) (by decide)
